import Mathlib

/-!
A shallow embedding of `bin/dedup.py` (a duplicate-file finder with a
persisted hash cache) and proofs about the properties claimed in its
design document.

Modelling conventions:
* Python byte strings (paths, checksums, file contents) are `List Nat`,
  one element per byte.
* `self.cache` (a Python `dict` from path to `(mtime, checksum)`,
  insertion-ordered) is an association list `List Entry` together with
  the insertion procedure `dictInsert`, which overwrites in place or
  appends a fresh key at the end, exactly like a Python dict.
* External collaborators (`os.path.realpath`, `os.path.isfile`,
  `os.stat`, `hash_file`'s interaction with the filesystem) are
  parameters of the functions that call them; `os.path.dirname` is
  additionally given a concrete executable model `os_dirname`
  translated from `posixpath.dirname`, used to instantiate examples.
* `sys.exit(1)` and uncaught exceptions are modelled as explicit
  outcome values threaded through the control flow.
-/

namespace Dedup

/-- One entry of `self.cache`: `(path, (st_mtime_ns, checksum))`. -/
abbrev Entry := List Nat × Int × List Nat

/-- `self.cache[filename] = (mtime, checksum)` on an insertion-ordered
dict: overwrite in place if the key exists, else append at the end. -/
def dictInsert (k : List Nat) (v : Int × List Nat) : List Entry → List Entry
  | [] => [(k, v)]
  | (k', v') :: rest => if k' = k then (k, v) :: rest else (k', v') :: dictInsert k v rest

/-- `path in self.cache` / `self.cache[path]` lookup. -/
def cacheLookup (p : List Nat) : List Entry → Option (Int × List Nat)
  | [] => none
  | (q, v) :: rest => if q = p then some v else cacheLookup p rest

/-- The cache header line `HEADER = "dedup.py 0.0 md5"` as bytes. -/
def HEADER : List Nat :=
  [100, 101, 100, 117, 112, 46, 112, 121, 32, 48, 46, 48, 32, 109, 100, 53]

/-- `MAX_CACHE_AGE = datetime.timedelta(hours=1)`, in seconds. -/
def MAX_CACHE_AGE : Int := 3600

/-- Little-endian decimal digits of `n`, with explicit fuel (the fuel
`n` itself is always enough since `n / 10 < n` for `n > 0`). -/
def natDigits : Nat → Nat → List Nat
  | 0, _ => []
  | _ + 1, 0 => []
  | fuel + 1, n => n % 10 :: natDigits fuel (n / 10)

/-- ASCII decimal rendering of a natural number, as produced by
Python's `b"%i"` formatting for non-negative values. -/
def encNat (n : Nat) : List Nat :=
  if n = 0 then [48] else ((natDigits n n).reverse.map (fun d => d + 48))

/-- ASCII decimal rendering of an integer (`b"%i" % mtime`): a leading
`-` (byte 45) for negative values. -/
def encInt (i : Int) : List Nat :=
  if i < 0 then 45 :: encNat i.natAbs else encNat i.toNat

/-- `int(bytes_of_digits)` on a well-formed unsigned decimal literal. -/
def parseNat (l : List Nat) : Nat :=
  l.foldl (fun a d => a * 10 + (d - 48)) 0

/-- `int(...)` on a well-formed decimal literal with optional sign. -/
def parseInt : List Nat → Int
  | 45 :: rest => -(parseNat rest : Int)
  | l => (parseNat l : Int)

/-- One hex digit byte, as produced by `binascii.hexlify` (lowercase). -/
def hexDigit (d : Nat) : Nat :=
  if d < 10 then 48 + d else 87 + d

/-- `binascii.hexlify`: two lowercase hex bytes per input byte. -/
def hexlify : List Nat → List Nat
  | [] => []
  | b :: rest => hexDigit (b / 16) :: hexDigit (b % 16) :: hexlify rest

/-- Value of a lowercase hex digit byte. -/
def hexVal (c : Nat) : Nat :=
  if c < 58 then c - 48 else c - 87

/-- `binascii.unhexlify` on a well-formed even-length hex string. -/
def unhexlify : List Nat → List Nat
  | a :: b :: rest => (hexVal a * 16 + hexVal b) :: unhexlify rest
  | _ => []

/-- Split at the first occurrence of `sep`, or `none` if absent
(one step of Python's `bytes.split`). -/
def splitFirst (sep : Nat) : List Nat → Option (List Nat × List Nat)
  | [] => none
  | c :: rest =>
    if c = sep then some ([], rest)
    else (splitFirst sep rest).map (fun p => (c :: p.1, p.2))

/-- `line.split(b":", 2)`: at most two splits, remainder kept whole. -/
def splitColon2 (l : List Nat) : List (List Nat) :=
  match splitFirst 58 l with
  | none => [l]
  | some (a, r) =>
    match splitFirst 58 r with
    | none => [a, r]
    | some (b, c) => [a, b, c]

/-- `line.rstrip(b"\n")`: drop every trailing newline byte. -/
def rstripNl (l : List Nat) : List Nat :=
  (l.reverse.dropWhile (fun b => b == 10)).reverse

/-- `fp.readline()`: the first line including its terminating newline
(or everything, at end of file), plus the remaining bytes. -/
def readLine : List Nat → List Nat × List Nat
  | [] => ([], [])
  | c :: rest =>
    if c = 10 then ([10], rest)
    else
      let p := readLine rest
      (c :: p.1, p.2)

/-- `for line in fp`: the newline-terminated chunks of the remaining
bytes (a last chunk without `\n` is also yielded). -/
def splitLines : List Nat → List (List Nat)
  | [] => []
  | c :: rest =>
    let ls := splitLines rest
    if c = 10 then [10] :: ls
    else
      match ls with
      | [] => [[c]]
      | l :: ls' => (c :: l) :: ls'

/-- Concatenation of the record lines written by the `write_cache` loop. -/
def joinAll : List (List Nat) → List Nat
  | [] => []
  | l :: ls => l ++ joinAll ls

/-- The body of one cache record: `b"%i:%s:%s" % (mtime, hexlify(checksum), filename)`. -/
def recordBody (e : Entry) : List Nat :=
  encInt e.2.1 ++ 58 :: (hexlify e.2.2 ++ 58 :: e.1)

/-- One full record line (body plus terminating newline). -/
def recordLine (e : Entry) : List Nat :=
  recordBody e ++ [10]

/-- The byte content `write_cache` produces for a non-empty cache:
header line, creation timestamp `ts = cache_now()`, then one record
line per entry in dict order. -/
def cacheFileBytes (cache : List Entry) (ts : Nat) : List Nat :=
  HEADER ++ 10 :: (encNat ts ++ 10 :: joinAll (cache.map recordLine))

/-- `App.write_cache`, acting on the cache file's on-disk content
(`none` = file absent).  An empty in-memory cache returns immediately
without opening the file, leaving the disk untouched. -/
def write_cache (cache : List Entry) (ts : Nat) (disk : Option (List Nat)) :
    Option (List Nat) :=
  match cache with
  | [] => disk
  | _ => some (cacheFileBytes cache ts)

/-- `App.check_cache_age`, with the interactive answer abstracted into
the boolean `discard` (the spec's user-decision primitive): a cache
younger than `MAX_CACHE_AGE` is always used; otherwise the caller's
decision applies.  Returns `true` when `read_cache` should return early
with the cache discarded.  (The `sys.exit(0)` paths on empty input are
outside every claim and not modelled.) -/
def check_cache_age (now : Nat) (ts : Int) (discard : Bool) : Bool :=
  if (now : Int) - ts < MAX_CACHE_AGE then false else discard

/-- Errors with which `read_cache` aborts the process. -/
inductive ReadError
  | badHeader
  | badRecord
  deriving DecidableEq

/-- Parse one cache record line:
`mtime, checksum, filename = line.rstrip(b"\n").split(b":", 2)`.
`none` models the `ValueError` raised when fewer than two colons are
present. -/
def parseLine (line : List Nat) : Option Entry :=
  match splitColon2 (rstripNl line) with
  | [m, ck, fn] => some (fn, (parseInt m, unhexlify ck))
  | _ => none

/-- The record-reading loop of `read_cache`, inserting each parsed
entry into the dict. -/
def readRecords : List (List Nat) → List Entry → Except ReadError (List Entry)
  | [], acc => .ok acc
  | line :: rest, acc =>
    match parseLine line with
    | none => .error .badRecord
    | some e => readRecords rest (dictInsert e.1 e.2 acc)

/-- `App.read_cache`: a missing file yields an empty cache; a wrong
header is fatal (`sys.exit(1)`); a stale cache the user discards yields
an empty cache; otherwise every record line is parsed into the dict. -/
def read_cache (now : Nat) (discard : Bool) (disk : Option (List Nat)) :
    Except ReadError (List Entry) :=
  match disk with
  | none => .ok []
  | some content =>
    let p := readLine content
    if p.1 = HEADER ++ [10] then
      let q := readLine p.2
      let ts := parseInt (rstripNl q.1)
      if check_cache_age now ts discard then .ok []
      else readRecords (splitLines q.2) []
    else .error .badHeader

/-- The two fields of `os.stat` results that `scan_file` reads. -/
structure FileStat where
  st_mtime_ns : Int
  st_size : Int
  deriving DecidableEq

/-- How one `scan_file` call ends. -/
inductive ScanResult
  /-- `path == self.cache_filename`: silently skipped. -/
  | skipCacheFile
  /-- `raise ValueError(...)`: the canonical path contains a newline. -/
  | newlineError
  /-- `os.stat` raised; the exception is uncaught and aborts the scan. -/
  | statError
  /-- cached entry at least as new as the file: return without a job. -/
  | cacheHit
  /-- a `HashJob` was put on the queue, capturing `path` and `mtime`. -/
  | job (path : List Nat) (mtime : Int)
  deriving DecidableEq

/-- `App.scan_file`.  External collaborators are parameters:
`real_path` is `os.path.realpath`, `isfile` is `os.path.isfile`,
`statFn` is `os.stat` (`none` = raises `OSError`).  The second
component of the result records whether the non-regular-file warning
was printed. -/
def scan_file (real_path : List Nat → List Nat) (cache_filename : List Nat)
    (isfile : List Nat → Bool) (statFn : List Nat → Option FileStat)
    (cache : List Entry) (path0 : List Nat) : ScanResult × Bool :=
  let path := real_path path0
  if path = cache_filename then (.skipCacheFile, false)
  else if 10 ∈ path then (.newlineError, false)
  else
    -- the source prints the warning but has no `return` here
    let warned := !(isfile path)
    match statFn path with
    | none => (.statError, warned)
    | some st =>
      let mtime := st.st_mtime_ns
      match cacheLookup path cache with
      | some (cache_mtime, _) =>
        if cache_mtime ≥ mtime then (.cacheHit, warned)
        else (.job path mtime, warned)
      | none => (.job path mtime, warned)

/-- The per-job callback `write_checksum` closed over `path` and
`mtime`, run when a worker delivers the checksum:
`self.cache[path] = (mtime, checksum)`. -/
def write_checksum (path : List Nat) (mtime : Int) (checksum : List Nat)
    (cache : List Entry) : List Entry :=
  dictInsert path (mtime, checksum) cache

/-- `HashThread.run`, consuming the queue contents in order (`none` is
the poison sentinel).  `hashFn` is `hash_file`; `.error` is an
`IOError`/`OSError` raised while reading the file.  Returns the list of
`(filename, checksum)` pairs delivered to callbacks before the thread
stopped, and `true` iff the thread died of an uncaught exception
instead of reaching the sentinel. -/
def hashThreadRun (hashFn : List Nat → Except Unit (List Nat)) :
    List (Option (List Nat)) → List (List Nat × List Nat) × Bool
  | [] => ([], false)
  | none :: _ => ([], false)
  | some f :: rest =>
    match hashFn f with
    | .error _ => ([], true)
    | .ok c =>
      let r := hashThreadRun hashFn rest
      ((f, c) :: r.1, r.2)

/-- How a `remove_dir` run ends. -/
inductive RunExit
  /-- the loop over `content` ran to completion -/
  | normal
  /-- `sys.exit(1)` after a verification-copy checksum mismatch -/
  | staleExit
  /-- uncaught `OSError` from `hash_file` on a verification copy -/
  | crashed
  deriving DecidableEq

/-- Observable result of `remove_dir`. -/
structure RemoveOutcome where
  /-- target files printed as `Remove duplicate ...` (counted by `nremoved`) -/
  reported : List (List Nat)
  /-- files actually passed to `os.unlink` (only in `--remove` mode) -/
  deleted : List (List Nat)
  /-- the `nremoved` counter -/
  nremoved : Nat
  /-- how the run ended -/
  outcome : RunExit
  deriving DecidableEq

/-- `content`: the cache entries whose path's parent directory is the
target directory, as `(filename, checksum)` pairs, in dict order. -/
def contentOf (dirname : List Nat → List Nat) (directory : List Nat)
    (cache : List Entry) : List (List Nat × List Nat) :=
  (cache.filter fun e => decide (dirname e.1 = directory)).map fun e => (e.1, e.2.2)

/-- `byhash`: fingerprint → list of non-target paths with that
fingerprint, in dict order (a `defaultdict(list)` gives `[]` for an
absent key). -/
def byhash (dirname : List Nat → List Nat) (directory : List Nat)
    (cache : List Entry) (ck : List Nat) : List (List Nat) :=
  (cache.filter fun e =>
    decide (¬ dirname e.1 = directory) && decide (e.2.2 = ck)).map (fun e => e.1)

/-- The main loop of `remove_dir` over `content`.  For each target file
with a non-empty duplicate group, the first group member is re-hashed
live; a mismatch prints an error and calls `sys.exit(1)` (no further
processing, no further deletions); on a match the file is reported
and, in `--remove` mode, unlinked and dropped from the cache. -/
def removeLoop (hashFn : List Nat → Except Unit (List Nat))
    (byh : List Nat → List (List Nat)) (remove : Bool) :
    List (List Nat × List Nat) → RemoveOutcome
  | [] => ⟨[], [], 0, .normal⟩
  | (f, ck) :: rest =>
    match byh ck with
    | [] => removeLoop hashFn byh remove rest
    | copy :: _ =>
      match hashFn copy with
      | .error _ => ⟨[], [], 0, .crashed⟩
      | .ok copy_checksum =>
        if copy_checksum = ck then
          let r := removeLoop hashFn byh remove rest
          ⟨f :: r.reported, if remove then f :: r.deleted else r.deleted,
            r.nremoved + 1, r.outcome⟩
        else ⟨[], [], 0, .staleExit⟩

/-- `App.remove_dir`: canonicalize the target directory, partition the
cache into target `content` and the `byhash` groups, then run the
verification/removal loop.  (The final `os.rmdir` of the emptied
directory touches no file and is outside every claim.) -/
def remove_dir (hashFn : List Nat → Except Unit (List Nat))
    (dirname real_path : List Nat → List Nat) (cache : List Entry)
    (directoryArg : List Nat) (remove : Bool) : RemoveOutcome :=
  let directory := real_path directoryArg
  removeLoop hashFn (byhash dirname directory cache) remove
    (contentOf dirname directory cache)

/-- The tail of `App.main` for the `remove_dir` action, starting from a
populated in-memory cache.  `sys.exit(1)` raises `SystemExit`, which
the `except KeyboardInterrupt` clause does not catch; the `finally`
clause only stops the worker threads, and the `self.write_cache()` call
sits *after* the whole `try` statement, so it is skipped and the
process exits with status 1.  An uncaught `OSError` from `hash_file`
propagates the same way (exit status 1).  On a normal return the
entries of unlinked files have been dropped from the cache
(`del self.cache[filename]`), the cache is written, and the process
exits with status 0. -/
def main_remove_dir (hashFn : List Nat → Except Unit (List Nat))
    (dirname real_path : List Nat → List Nat) (cache : List Entry)
    (directoryArg : List Nat) (remove : Bool) (ts : Nat)
    (disk : Option (List Nat)) : Option (List Nat) × Nat :=
  let out := remove_dir hashFn dirname real_path cache directoryArg remove
  match out.outcome with
  | .normal =>
    let cache2 := cache.filter fun e => !(decide (e.1 ∈ out.deleted))
    (write_cache cache2 ts disk, 0)
  | .staleExit => (disk, 1)
  | .crashed => (disk, 1)

/-- Index just past the last `/` byte in `p` (0 if none):
`p.rfind(b"/") + 1` in `posixpath.dirname`. -/
def lastSlashEnd : List Nat → Nat
  | [] => 0
  | c :: rest =>
    let r := lastSlashEnd rest
    if r > 0 then r + 1 else if c = 47 then 1 else 0

/-- `head.rstrip(b"/")`. -/
def rstripSlash (l : List Nat) : List Nat :=
  (l.reverse.dropWhile (fun b => b == 47)).reverse

/-- `os.path.dirname` on byte paths, translated from `posixpath.dirname`:
take everything up to and including the last slash, then strip trailing
slashes unless the head is all slashes. -/
def os_dirname (p : List Nat) : List Nat :=
  let head := p.take (lastSlashEnd p)
  if head = [] then head
  else if head = List.replicate head.length 47 then head
  else rstripSlash head

/-! ### Decimal, hex and line-format lemmas -/

theorem natDigits_foldr (fuel n : Nat) (h : n ≤ fuel) :
    (natDigits fuel n).foldr (fun d a => d + 10 * a) 0 = n := by
  induction fuel generalizing n with
  | zero =>
    interval_cases n
    rfl
  | succ fuel ih =>
    match n with
    | 0 => rfl
    | m + 1 =>
      have hdiv : (m + 1) / 10 < m + 1 := Nat.div_lt_self (by omega) (by omega)
      have := ih ((m + 1) / 10) (by omega)
      simp only [natDigits, List.foldr_cons, this]
      omega

theorem natDigits_mem_lt (fuel : Nat) : ∀ n d, d ∈ natDigits fuel n → d < 10 := by
  induction fuel with
  | zero =>
    intro n d h
    simp [natDigits] at h
  | succ fuel ih =>
    intro n d h
    match n with
    | 0 => simp [natDigits] at h
    | m + 1 =>
      simp only [natDigits, List.mem_cons] at h
      rcases h with h | h
      · omega
      · exact ih _ _ h

theorem parseNat_rev_map (l : List Nat) :
    parseNat (l.reverse.map (fun d => d + 48)) = l.foldr (fun d a => d + 10 * a) 0 := by
  induction l with
  | nil => rfl
  | cons d t ih =>
    simp only [List.reverse_cons, List.map_append, List.map_cons, List.map_nil,
      List.foldr_cons]
    simp only [parseNat, List.foldl_append, List.foldl_cons, List.foldl_nil] at ih ⊢
    omega

theorem parseNat_encNat (n : Nat) : parseNat (encNat n) = n := by
  unfold encNat
  split
  · simp only [parseNat, List.foldl_cons, List.foldl_nil]
    omega
  · rw [parseNat_rev_map, natDigits_foldr n n le_rfl]

theorem encNat_mem_digit {n b : Nat} (h : b ∈ encNat n) : 48 ≤ b ∧ b ≤ 57 := by
  unfold encNat at h
  split at h
  · simp only [List.mem_singleton] at h
    omega
  · simp only [List.mem_map, List.mem_reverse] at h
    obtain ⟨d, hd, rfl⟩ := h
    have := natDigits_mem_lt n n d hd
    omega

theorem encNat_ne_nil (n : Nat) : encNat n ≠ [] := by
  unfold encNat
  split
  · simp
  · match n with
    | 0 => simp_all
    | m + 1 => simp [natDigits]

theorem encNat_no10 (n : Nat) : (10 : Nat) ∉ encNat n := by
  intro h
  have := encNat_mem_digit h
  omega

theorem encNat_no58 (n : Nat) : (58 : Nat) ∉ encNat n := by
  intro h
  have := encNat_mem_digit h
  omega

theorem parseInt_head_ne (c : Nat) (t : List Nat) (h : c ≠ 45) :
    parseInt (c :: t) = (parseNat (c :: t) : Int) := by
  rw [parseInt.eq_def]
  split
  · simp_all
  · rfl

theorem parseInt_encNat (n : Nat) : parseInt (encNat n) = (n : Int) := by
  obtain ⟨c, t, hct⟩ : ∃ c t, encNat n = c :: t := by
    cases h : encNat n with
    | nil => exact absurd h (encNat_ne_nil n)
    | cons c t => exact ⟨c, t, rfl⟩
  have hc : 48 ≤ c ∧ c ≤ 57 := encNat_mem_digit (by rw [hct]; exact List.mem_cons_self c t)
  rw [hct, parseInt_head_ne c t (by omega), ← hct, parseNat_encNat]

theorem parseInt_encInt (i : Int) : parseInt (encInt i) = i := by
  unfold encInt
  split
  · show parseInt (45 :: encNat i.natAbs) = i
    have : parseInt (45 :: encNat i.natAbs) = -(parseNat (encNat i.natAbs) : Int) := rfl
    rw [this, parseNat_encNat]
    omega
  · rw [parseInt_encNat]
    omega

theorem encInt_mem {i : Int} {b : Nat} (h : b ∈ encInt i) :
    b = 45 ∨ (48 ≤ b ∧ b ≤ 57) := by
  unfold encInt at h
  split at h
  · rcases List.mem_cons.mp h with h | h
    · exact Or.inl h
    · exact Or.inr (encNat_mem_digit h)
  · exact Or.inr (encNat_mem_digit h)

theorem encInt_no10 (i : Int) : (10 : Nat) ∉ encInt i := by
  intro h
  rcases encInt_mem h with h | h <;> omega

theorem encInt_no58 (i : Int) : (58 : Nat) ∉ encInt i := by
  intro h
  rcases encInt_mem h with h | h <;> omega

theorem hexDigit_ne58 (d : Nat) : hexDigit d ≠ 58 := by
  unfold hexDigit
  split <;> omega

theorem hexDigit_ne10 (d : Nat) : hexDigit d ≠ 10 := by
  unfold hexDigit
  split <;> omega

theorem hexlify_no58 (l : List Nat) : (58 : Nat) ∉ hexlify l := by
  induction l with
  | nil => simp [hexlify]
  | cons b t ih =>
    intro h
    simp only [hexlify, List.mem_cons] at h
    rcases h with h | h | h
    · exact hexDigit_ne58 _ h.symm
    · exact hexDigit_ne58 _ h.symm
    · exact ih h

theorem hexlify_no10 (l : List Nat) : (10 : Nat) ∉ hexlify l := by
  induction l with
  | nil => simp [hexlify]
  | cons b t ih =>
    intro h
    simp only [hexlify, List.mem_cons] at h
    rcases h with h | h | h
    · exact hexDigit_ne10 _ h.symm
    · exact hexDigit_ne10 _ h.symm
    · exact ih h

theorem hexVal_hexDigit {d : Nat} (h : d < 16) : hexVal (hexDigit d) = d := by
  unfold hexVal hexDigit
  split <;> split <;> omega

theorem unhexlify_hexlify (l : List Nat) (h : ∀ b ∈ l, b < 256) :
    unhexlify (hexlify l) = l := by
  induction l with
  | nil => rfl
  | cons b t ih =>
    have hb : b < 256 := h b (List.mem_cons_self b t)
    have h1 : b / 16 < 16 := by omega
    have h2 : b % 16 < 16 := by omega
    simp only [hexlify, unhexlify, hexVal_hexDigit h1, hexVal_hexDigit h2]
    rw [ih (fun x hx => h x (List.mem_cons_of_mem b hx))]
    congr 1
    omega

theorem splitFirst_app (sep : Nat) (a r : List Nat) (ha : sep ∉ a) :
    splitFirst sep (a ++ sep :: r) = some (a, r) := by
  induction a with
  | nil => simp [splitFirst]
  | cons c t ih =>
    have hc : c ≠ sep := fun h => ha (h ▸ List.mem_cons_self c t)
    have ht : sep ∉ t := fun h => ha (List.mem_cons_of_mem c h)
    show (if c = sep then some ([], t ++ sep :: r)
      else (splitFirst sep (t ++ sep :: r)).map fun p => (c :: p.1, p.2)) = some (c :: t, r)
    rw [if_neg hc, ih ht]
    rfl

theorem splitColon2_app (a b c : List Nat) (ha : (58 : Nat) ∉ a) (hb : (58 : Nat) ∉ b) :
    splitColon2 (a ++ 58 :: (b ++ 58 :: c)) = [a, b, c] := by
  simp only [splitColon2, splitFirst_app 58 a _ ha, splitFirst_app 58 b c hb]

theorem dropWhile_nl_of_no10 (l : List Nat) (h : (10 : Nat) ∉ l) :
    l.dropWhile (fun b => b == 10) = l := by
  cases l with
  | nil => rfl
  | cons c t =>
    have hc : c ≠ 10 := fun hh => h (hh ▸ List.mem_cons_self c t)
    simp [List.dropWhile_cons, hc]

theorem rstripNl_app (body : List Nat) (h : (10 : Nat) ∉ body) :
    rstripNl (body ++ [10]) = body := by
  unfold rstripNl
  rw [List.reverse_append]
  show ((10 :: body.reverse).dropWhile (fun b => b == 10)).reverse = body
  rw [List.dropWhile_cons]
  simp only [beq_self_eq_true, if_pos]
  rw [dropWhile_nl_of_no10 _ (by simpa using h), List.reverse_reverse]

theorem readLine_app (body rest : List Nat) (h : (10 : Nat) ∉ body) :
    readLine (body ++ 10 :: rest) = (body ++ [10], rest) := by
  induction body with
  | nil => simp [readLine]
  | cons c t ih =>
    have hc : c ≠ 10 := fun hh => h (hh ▸ List.mem_cons_self c t)
    have ht : (10 : Nat) ∉ t := fun hh => h (List.mem_cons_of_mem c hh)
    show (if c = 10 then ([10], t ++ 10 :: rest)
      else (c :: (readLine (t ++ 10 :: rest)).1, (readLine (t ++ 10 :: rest)).2)) =
        ((c :: t) ++ [10], rest)
    rw [if_neg hc, ih ht]
    rfl

theorem splitLines_app (body rest : List Nat) (h : (10 : Nat) ∉ body) :
    splitLines (body ++ 10 :: rest) = (body ++ [10]) :: splitLines rest := by
  induction body with
  | nil => simp [splitLines]
  | cons c t ih =>
    have hc : c ≠ 10 := fun hh => h (hh ▸ List.mem_cons_self c t)
    have ht : (10 : Nat) ∉ t := fun hh => h (List.mem_cons_of_mem c hh)
    show (if c = 10 then [10] :: splitLines (t ++ 10 :: rest)
      else match splitLines (t ++ 10 :: rest) with
        | [] => [[c]]
        | l :: ls' => (c :: l) :: ls') = ((c :: t) ++ [10]) :: splitLines rest
    rw [if_neg hc, ih ht]
    rfl

theorem splitLines_joinAll (lines : List (List Nat))
    (h : ∀ l ∈ lines, ∃ body, l = body ++ [10] ∧ (10 : Nat) ∉ body) :
    splitLines (joinAll lines) = lines := by
  induction lines with
  | nil => rfl
  | cons l ls ih =>
    obtain ⟨body, rfl, hbody⟩ := h l (List.mem_cons_self l ls)
    show splitLines ((body ++ [10]) ++ joinAll ls) = (body ++ [10]) :: ls
    rw [List.append_assoc, List.singleton_append, splitLines_app _ _ hbody,
      ih (fun x hx => h x (List.mem_cons_of_mem _ hx))]

theorem recordBody_no10 (e : Entry) (h : (10 : Nat) ∉ e.1) :
    (10 : Nat) ∉ recordBody e := by
  unfold recordBody
  simp only [List.mem_append, List.mem_cons, not_or]
  exact ⟨encInt_no10 _, by omega, hexlify_no10 _, by omega, h⟩

theorem parseLine_recordLine (e : Entry) (h10 : (10 : Nat) ∉ e.1)
    (hck : ∀ b ∈ e.2.2, b < 256) : parseLine (recordLine e) = some e := by
  obtain ⟨fn, m, ck⟩ := e
  unfold parseLine recordLine
  rw [rstripNl_app _ (recordBody_no10 _ h10)]
  unfold recordBody
  rw [splitColon2_app _ _ _ (encInt_no58 m) (hexlify_no58 ck)]
  simp only [parseInt_encInt, unhexlify_hexlify ck hck]

theorem dictInsert_append (k : List Nat) (v : Int × List Nat) (cache : List Entry)
    (h : k ∉ cache.map (fun e => e.1)) : dictInsert k v cache = cache ++ [(k, v)] := by
  induction cache with
  | nil => rfl
  | cons e t ih =>
    obtain ⟨e1, e2⟩ := e
    simp only [List.map_cons, List.mem_cons, not_or] at h
    have h1 : ¬ (e1 = k) := fun hh => h.1 hh.symm
    show (if e1 = k then (k, v) :: t else (e1, e2) :: dictInsert k v t) =
      ((e1, e2) :: t) ++ [(k, v)]
    rw [if_neg h1, ih h.2]
    rfl

theorem foldl_dictInsert (entries acc : List Entry)
    (hnd : (entries.map (fun e => e.1)).Nodup)
    (hdisj : ∀ e ∈ entries, e.1 ∉ acc.map (fun e => e.1)) :
    entries.foldl (fun a e => dictInsert e.1 e.2 a) acc = acc ++ entries := by
  induction entries generalizing acc with
  | nil => simp
  | cons e t ih =>
    simp only [List.map_cons, List.nodup_cons] at hnd
    simp only [List.foldl_cons]
    rw [dictInsert_append e.1 e.2 acc (hdisj e (List.mem_cons_self e t))]
    have : acc ++ [(e.1, e.2)] = acc ++ [e] := by simp
    rw [this, ih (acc ++ [e]) hnd.2]
    · simp
    · intro e' he'
      simp only [List.map_append, List.map_cons, List.map_nil, List.mem_append,
        List.mem_singleton, not_or]
      refine ⟨hdisj e' (List.mem_cons_of_mem e he'), fun hh => ?_⟩
      exact hnd.1 (hh ▸ List.mem_map_of_mem (fun x => x.1) he')

theorem readRecords_map (entries acc : List Entry)
    (h : ∀ e ∈ entries, parseLine (recordLine e) = some e) :
    readRecords (entries.map recordLine) acc =
      .ok (entries.foldl (fun a e => dictInsert e.1 e.2 a) acc) := by
  induction entries generalizing acc with
  | nil => rfl
  | cons e t ih =>
    simp only [List.map_cons, readRecords, h e (List.mem_cons_self e t)]
    exact ih _ (fun x hx => h x (List.mem_cons_of_mem e hx))

/-- **C5.** Persist followed by load is a round-trip: for a non-empty
cache whose paths contain no newline byte (and whose fingerprints are
genuine byte strings), `read_cache` applied to the file produced by
`write_cache` returns exactly the original cache — the same paths in
the same order, byte-identical fingerprints and the same integer
modification times, paths containing `:` included (the record is split
on the first two colons only). -/
theorem cache_round_trip (cache : List Entry) (ts now : Nat) (discard : Bool)
    (disk0 : Option (List Nat))
    (hne : cache ≠ [])
    (hkeys : (cache.map (fun e => e.1)).Nodup)
    (hfn : ∀ e ∈ cache, (10 : Nat) ∉ e.1)
    (hck : ∀ e ∈ cache, ∀ b ∈ e.2.2, b < 256)
    (hfresh : (now : Int) - (ts : Int) < MAX_CACHE_AGE) :
    read_cache now discard (write_cache cache ts disk0) = .ok cache := by
  have hw : write_cache cache ts disk0 = some (cacheFileBytes cache ts) := by
    cases cache with
    | nil => exact absurd rfl hne
    | cons e t => rfl
  rw [hw]
  have hage : check_cache_age now (ts : Int) discard = false := by
    unfold check_cache_age
    rw [if_pos hfresh]
  have hlines : splitLines (joinAll (cache.map recordLine)) = cache.map recordLine := by
    refine splitLines_joinAll (cache.map recordLine) ?_
    intro l hl
    simp only [List.mem_map] at hl
    obtain ⟨e, he, rfl⟩ := hl
    exact ⟨recordBody e, rfl, recordBody_no10 e (hfn e he)⟩
  simp only [read_cache, cacheFileBytes, readLine_app HEADER _ (by decide : (10 : Nat) ∉ HEADER),
    readLine_app (encNat ts) _ (encNat_no10 ts), rstripNl_app _ (encNat_no10 ts),
    parseInt_encNat ts, hage, if_pos rfl, Bool.false_eq_true, if_false, hlines]
  rw [readRecords_map cache []
    (fun e he => parseLine_recordLine e (hfn e he) (hck e he))]
  rw [foldl_dictInsert cache [] hkeys (by simp)]
  simp

/-- Witness for C5 at a concrete one-entry cache (path `"a"`,
fingerprint `0xab`, modification time 5, written and read at time 3). -/
theorem cache_round_trip_witness :
    read_cache 3 false (write_cache [([97], (5, [171]))] 3 none) =
      .ok [([97], (5, [171]))] :=
  cache_round_trip [([97], (5, [171]))] 3 3 false none (by decide) (by decide)
    (by decide) (by decide) (by decide)

/-- **C9.** If the in-memory cache is empty, `write_cache` performs no
write at all: the on-disk cache file (present or absent, whatever its
bytes) is left exactly as it was, for every timestamp. -/
theorem write_cache_empty_frame (ts : Nat) (disk : Option (List Nat)) :
    write_cache [] ts disk = disk := rfl

/-! ### Scanner claims -/

/-- **C7.** If the canonicalized path contains a newline byte then
`scan_file` raises the `ValueError` (the spec's `PathEncodingError`)
straight away: the result is `newlineError` with no warning printed,
for *every* `isfile`/`stat` collaborator and every cache — so the file
is never stat'ed, the cache never consulted or updated, and no hashing
job submitted, and such a path can never reach the line-delimited cache
file.  (The only earlier exit is the cache-file self-skip, ruled out
here because the cache file's own path contains no newline.) -/
theorem scan_file_newline_rejected (real_path : List Nat → List Nat)
    (cache_filename : List Nat) (isfile : List Nat → Bool)
    (statFn : List Nat → Option FileStat) (cache : List Entry) (path0 : List Nat)
    (hcf : (10 : Nat) ∉ cache_filename)
    (hnl : (10 : Nat) ∈ real_path path0) :
    scan_file real_path cache_filename isfile statFn cache path0 =
      (.newlineError, false) := by
  have hne : real_path path0 ≠ cache_filename := fun h => hcf (h ▸ hnl)
  simp only [scan_file, if_neg hne, if_pos hnl]

/-- Witness for C7: the path `"\n"` is rejected before any stat
(here `statFn` even fails on every path, and is never reached). -/
theorem scan_file_newline_rejected_witness :
    scan_file (fun p => p) [99] (fun _ => true) (fun _ => none) [] [10] =
      (.newlineError, false) :=
  scan_file_newline_rejected (fun p => p) [99] (fun _ => true) (fun _ => none) [] [10]
    (by decide) (by decide)

/-- **C6.** For a scanned file that is not the cache file, has a
newline-free canonical path and can be stat'ed: if the cache holds an
entry for the canonical path whose stored modification time is at least
the file's current one, `scan_file` returns `cacheHit` (no job is
submitted, so nothing ever overwrites the entry); otherwise it returns
a job capturing the path and the current modification time, and the
job's completion callback stores `(current mtime, fingerprint)` under
that path. -/
theorem scan_file_cache_policy (real_path : List Nat → List Nat)
    (cache_filename : List Nat) (isfile : List Nat → Bool)
    (statFn : List Nat → Option FileStat) (cache : List Entry) (path0 : List Nat)
    (st : FileStat)
    (hcf : real_path path0 ≠ cache_filename)
    (hnl : (10 : Nat) ∉ real_path path0)
    (hstat : statFn (real_path path0) = some st) :
    ((∃ cm ck, cacheLookup (real_path path0) cache = some (cm, ck) ∧
        st.st_mtime_ns ≤ cm) →
      (scan_file real_path cache_filename isfile statFn cache path0).1 = .cacheHit) ∧
    ((¬ ∃ cm ck, cacheLookup (real_path path0) cache = some (cm, ck) ∧
        st.st_mtime_ns ≤ cm) →
      (scan_file real_path cache_filename isfile statFn cache path0).1 =
        .job (real_path path0) st.st_mtime_ns ∧
      ∀ c, write_checksum (real_path path0) st.st_mtime_ns c cache =
        dictInsert (real_path path0) (st.st_mtime_ns, c) cache) := by
  constructor
  · rintro ⟨cm, ck, hl, hge⟩
    simp only [scan_file, if_neg hcf, if_neg hnl, hstat, hl, ge_iff_le, if_pos hge]
  · intro hmiss
    refine ⟨?_, fun c => rfl⟩
    cases hl : cacheLookup (real_path path0) cache with
    | none => simp only [scan_file, if_neg hcf, if_neg hnl, hstat, hl]
    | some v =>
      obtain ⟨cm, ck⟩ := v
      have hlt : ¬ (st.st_mtime_ns ≤ cm) := fun hd => hmiss ⟨cm, ck, hl, hd⟩
      simp only [scan_file, if_neg hcf, if_neg hnl, hstat, hl, ge_iff_le, if_neg hlt]

/-- Witness for C6 (cache-hit side): cached mtime 9 ≥ current mtime 5,
so the scan returns `cacheHit`. -/
theorem scan_file_cache_policy_witness :
    (scan_file (fun p => p) [99] (fun _ => true) (fun _ => some ⟨5, 0⟩)
      [([97], (9, [1]))] [97]).1 = .cacheHit :=
  (scan_file_cache_policy (fun p => p) [99] (fun _ => true) (fun _ => some ⟨5, 0⟩)
    [([97], (9, [1]))] [97] ⟨5, 0⟩ (by decide) (by decide) rfl).1
    ⟨9, [1], rfl, by decide⟩

/-- **C4 (code bug).** `scan_file` prints the `Skip non-regular file`
warning when `os.path.isfile` is false, but the `if` body has no
`return`: here a non-regular path (`isfile` = false, `stat` succeeds,
mtime 5) is warned about (`true`) and *still* stat'ed, checked against
the cache and submitted as a hashing job, contradicting the skip that
both the spec and the code's own warning message describe. -/
theorem scan_file_nonregular_not_skipped :
    scan_file (fun p => p) [99] (fun _ => false) (fun _ => some ⟨5, 0⟩) [] [97] =
      (.job [97] 5, true) := rfl

/-! ### Worker-pool claims -/

/-- **C2 (counterexample).** The claim says a worker hit by an
`IOError` from the hasher warns and keeps consuming jobs.  In the code
`HashThread.run` has no exception handling at all: with a hasher that
fails on file `[1]`, the queue `[job [1], job [2], sentinel]` produces
no completed callback and a dead thread (`true`) — job `[2]` is never
processed and no warning is possible. -/
theorem hashThread_ioerror_kills_worker :
    hashThreadRun (fun p => if p = [1] then .error () else .ok [7])
      [some [1], some [2], none] = ([], true) := rfl

/-- **C2 (amended).** If `hash_file` raises an `IOError` on a job, the
exception propagates out of the worker's `run` loop uncaught: the
worker terminates at that job (died = `true`), delivers no further
callback and processes none of the subsequent jobs — a single
unreadable file stops that worker. -/
theorem hashThread_error_propagates (hashFn : List Nat → Except Unit (List Nat))
    (f : List Nat) (rest : List (Option (List Nat))) (h : hashFn f = .error ()) :
    hashThreadRun hashFn (some f :: rest) = ([], true) := by
  simp only [hashThreadRun, h]

/-- Witness for the amended C2 at a concrete failing hasher and queue. -/
theorem hashThread_error_propagates_witness :
    hashThreadRun (fun _ => .error ()) [some [3], some [4], none] = ([], true) :=
  hashThread_error_propagates (fun _ => .error ()) [3] [some [4], none] rfl

/-! ### Removal-workflow claims -/

/-- **C1 (counterexample).** A removal run over a cache with two
target-directory files `/d/a`, `/d/b` and external copies `/e/a`,
`/e/b`: the live hash of `/e/a` matches, so `/d/a` is unlinked; then
the live hash of `/e/b` (`[99]`) mismatches the cached `[20]` and the
run exits via `sys.exit(1)` — but `/d/a` is already gone.  The run both
ends in the stale-cache abort *and* has deleted a file, refuting "no
file is deleted in that run". -/
theorem remove_dir_deletes_before_stale_exit :
    (remove_dir (fun p => if p = [47, 101, 47, 97] then Except.ok [10] else Except.ok [99])
        os_dirname (fun p => p)
        [([47, 100, 47, 97], (0, [10])), ([47, 101, 47, 97], (0, [10])),
         ([47, 100, 47, 98], (0, [20])), ([47, 101, 47, 98], (0, [20]))]
        [47, 100] true).outcome = .staleExit ∧
    (remove_dir (fun p => if p = [47, 101, 47, 97] then Except.ok [10] else Except.ok [99])
        os_dirname (fun p => p)
        [([47, 100, 47, 97], (0, [10])), ([47, 101, 47, 97], (0, [10])),
         ([47, 100, 47, 98], (0, [20])), ([47, 101, 47, 98], (0, [20]))]
        [47, 100] true).deleted = [[47, 100, 47, 97]] := by
  decide

/-- **C1 (amended).** When the verification copy of some target entry
mismatches, the run aborts at that entry with `sys.exit(1)`: the
mismatching file and every entry after it are left untouched, and the
run's reported/deleted/counted results are exactly those of the
already-verified entries before the mismatch — whose deletions have
already happened and are not undone. -/
theorem remove_dir_stale_mid_run (hashFn : List Nat → Except Unit (List Nat))
    (byh : List Nat → List (List Nat)) (remove : Bool)
    (pre post : List (List Nat × List Nat)) (f ck copy cc : List Nat)
    (tail : List (List Nat))
    (hgrp : byh ck = copy :: tail) (hhash : hashFn copy = .ok cc) (hne : cc ≠ ck)
    (hpre : (removeLoop hashFn byh remove pre).outcome = .normal) :
    removeLoop hashFn byh remove (pre ++ (f, ck) :: post) =
      ⟨(removeLoop hashFn byh remove pre).reported,
       (removeLoop hashFn byh remove pre).deleted,
       (removeLoop hashFn byh remove pre).nremoved, .staleExit⟩ := by
  induction pre with
  | nil =>
    simp only [List.nil_append, removeLoop, hgrp, hhash, if_neg hne]
  | cons e pre ih =>
    obtain ⟨g, gk⟩ := e
    cases hg : byh gk with
    | nil =>
      simp only [removeLoop, hg] at hpre
      simp only [List.cons_append, removeLoop, hg]
      exact ih hpre
    | cons c' cs' =>
      cases hh : hashFn c' with
      | error err => simp [removeLoop, hg, hh] at hpre
      | ok cc' =>
        by_cases hceq : cc' = gk
        · simp only [removeLoop, hg, hh, if_pos hceq] at hpre
          simp only [List.cons_append, removeLoop, hg, hh, if_pos hceq, List.append_eq]
          rw [ih hpre]
        · simp [removeLoop, hg, hh, hceq] at hpre

/-- Witness for the amended C1: one already-verified entry before the
mismatching one; the result keeps its deletion and ends in the abort. -/
theorem remove_dir_stale_mid_run_witness :
    removeLoop (fun p => if p = [47, 101, 47, 97] then Except.ok [10] else Except.ok [99])
      (fun c => if c = [10] then [[47, 101, 47, 97]]
        else if c = [20] then [[47, 101, 47, 98]] else [])
      true [([47, 100, 47, 97], [10]), ([47, 100, 47, 98], [20])] =
      ⟨[[47, 100, 47, 97]], [[47, 100, 47, 97]], 1, .staleExit⟩ :=
  remove_dir_stale_mid_run
    (fun p => if p = [47, 101, 47, 97] then Except.ok [10] else Except.ok [99])
    (fun c => if c = [10] then [[47, 101, 47, 97]]
      else if c = [20] then [[47, 101, 47, 98]] else [])
    true [([47, 100, 47, 97], [10])] [] [47, 100, 47, 98] [20] [47, 101, 47, 98] [99] []
    (by decide) rfl (by decide) (by decide)

/-- **C3 (counterexample).** The same stale-cache run as for C1, with
no cache file on disk and a non-empty in-memory cache: the process ends
with exit status 1 and the disk is still `none` — `write_cache` never
ran, because `sys.exit(1)`'s `SystemExit` propagates past the
`self.write_cache()` call that sits after the `try`/`finally`
statement.  This refutes "the process still persists the accumulated
cache before exiting". -/
theorem stale_exit_skips_write_cache :
    main_remove_dir (fun p => if p = [47, 101, 47, 97] then Except.ok [10] else Except.ok [99])
      os_dirname (fun p => p)
      [([47, 100, 47, 97], (0, [10])), ([47, 101, 47, 97], (0, [10])),
       ([47, 100, 47, 98], (0, [20])), ([47, 101, 47, 98], (0, [20]))]
      [47, 100] true 7 none = (none, 1) := by
  decide

/-- **C3 (amended).** When the removal run aborts with the stale-cache
`sys.exit(1)`, the process exits with status 1 *without* persisting the
in-memory cache: whatever cache file was on disk before the run is left
exactly as it was. -/
theorem main_remove_dir_stale_no_persist (hashFn : List Nat → Except Unit (List Nat))
    (dirname real_path : List Nat → List Nat) (cache : List Entry)
    (directoryArg : List Nat) (remove : Bool) (ts : Nat) (disk : Option (List Nat))
    (h : (remove_dir hashFn dirname real_path cache directoryArg remove).outcome =
      .staleExit) :
    main_remove_dir hashFn dirname real_path cache directoryArg remove ts disk =
      (disk, 1) := by
  simp only [main_remove_dir, h]

/-- Witness for the amended C3, with a pre-existing disk file `[1, 2]`
that survives untouched next to the status-1 exit. -/
theorem main_remove_dir_stale_no_persist_witness :
    main_remove_dir (fun p => if p = [47, 101, 47, 97] then Except.ok [10] else Except.ok [99])
      os_dirname (fun p => p)
      [([47, 100, 47, 97], (0, [10])), ([47, 101, 47, 97], (0, [10])),
       ([47, 100, 47, 98], (0, [20])), ([47, 101, 47, 98], (0, [20]))]
      [47, 100] true 9 (some [1, 2]) = (some [1, 2], 1) :=
  main_remove_dir_stale_no_persist
    (fun p => if p = [47, 101, 47, 97] then Except.ok [10] else Except.ok [99])
    os_dirname (fun p => p)
    [([47, 100, 47, 97], (0, [10])), ([47, 101, 47, 97], (0, [10])),
     ([47, 100, 47, 98], (0, [20])), ([47, 101, 47, 98], (0, [20]))]
    [47, 100] true 9 (some [1, 2]) (by decide)

theorem removeLoop_deleted_sub (hashFn : List Nat → Except Unit (List Nat))
    (byh : List Nat → List (List Nat)) (remove : Bool) :
    ∀ entries p, p ∈ (removeLoop hashFn byh remove entries).deleted →
      p ∈ entries.map (fun e => e.1) := by
  intro entries
  induction entries with
  | nil =>
    intro p hp
    simp [removeLoop] at hp
  | cons e rest ih =>
    obtain ⟨f, ck⟩ := e
    intro p hp
    cases hg : byh ck with
    | nil =>
      simp only [removeLoop, hg] at hp
      exact List.mem_cons_of_mem _ (ih p hp)
    | cons c' cs' =>
      cases hh : hashFn c' with
      | error err => simp [removeLoop, hg, hh] at hp
      | ok cc =>
        by_cases he : cc = ck
        · simp only [removeLoop, hg, hh, if_pos he] at hp
          by_cases hr : remove
          · rw [if_pos hr] at hp
            rcases List.mem_cons.mp hp with rfl | hp'
            · exact List.mem_cons_self _ _
            · exact List.mem_cons_of_mem _ (ih p hp')
          · rw [if_neg hr] at hp
            exact List.mem_cons_of_mem _ (ih p hp)
        · simp [removeLoop, hg, hh, he] at hp

/-- **C8.** `remove_dir` never unlinks a file outside the target
directory: every path it deletes comes from a cache entry whose parent
directory (`os.path.dirname`) equals the canonicalized target
directory — for every hasher, every cache, every directory argument
and both dry-run and destructive mode. -/
theorem remove_dir_deletes_only_target (hashFn : List Nat → Except Unit (List Nat))
    (dirname real_path : List Nat → List Nat) (cache : List Entry)
    (directoryArg : List Nat) (remove : Bool) (p : List Nat)
    (hp : p ∈ (remove_dir hashFn dirname real_path cache directoryArg remove).deleted) :
    dirname p = real_path directoryArg := by
  unfold remove_dir at hp
  have hmem := removeLoop_deleted_sub hashFn _ remove _ p hp
  simp only [contentOf, List.map_map, List.mem_map, List.mem_filter,
    Function.comp] at hmem
  obtain ⟨e, ⟨he, hdir⟩, rfl⟩ := hmem
  exact of_decide_eq_true hdir

/-- Witness for C8: a run that deletes `/d/a` from target `/d`, whose
parent directory is indeed the target. -/
theorem remove_dir_deletes_only_target_witness :
    [47, 100, 47, 97] ∈ (remove_dir (fun _ => Except.ok [10]) os_dirname (fun p => p)
      [([47, 100, 47, 97], (0, [10])), ([47, 101, 47, 97], (0, [10]))]
      [47, 100] true).deleted ∧
    os_dirname [47, 100, 47, 97] = [47, 100] :=
  ⟨by decide, remove_dir_deletes_only_target (fun _ => Except.ok [10]) os_dirname
    (fun p => p) [([47, 100, 47, 97], (0, [10])), ([47, 101, 47, 97], (0, [10]))]
    [47, 100] true [47, 100, 47, 97] (by decide)⟩

theorem removeLoop_deleted_sub_reported (hashFn : List Nat → Except Unit (List Nat))
    (byh : List Nat → List (List Nat)) (remove : Bool) :
    ∀ entries p, p ∈ (removeLoop hashFn byh remove entries).deleted →
      p ∈ (removeLoop hashFn byh remove entries).reported := by
  intro entries
  induction entries with
  | nil =>
    intro p hp
    simp [removeLoop] at hp
  | cons e rest ih =>
    obtain ⟨f, ck⟩ := e
    intro p hp
    cases hg : byh ck with
    | nil =>
      simp only [removeLoop, hg] at hp ⊢
      exact ih p hp
    | cons c' cs' =>
      cases hh : hashFn c' with
      | error err => simp [removeLoop, hg, hh] at hp
      | ok cc =>
        by_cases he : cc = ck
        · simp only [removeLoop, hg, hh, if_pos he] at hp ⊢
          by_cases hr : remove
          · rw [if_pos hr] at hp
            rcases List.mem_cons.mp hp with rfl | hp'
            · exact List.mem_cons_self _ _
            · exact List.mem_cons_of_mem _ (ih p hp')
          · rw [if_neg hr] at hp
            exact List.mem_cons_of_mem _ (ih p hp)
        · simp [removeLoop, hg, hh, he] at hp

theorem removeLoop_reported_group (hashFn : List Nat → Except Unit (List Nat))
    (byh : List Nat → List (List Nat)) (remove : Bool) :
    ∀ entries f, f ∈ (removeLoop hashFn byh remove entries).reported →
      ∃ ck, (f, ck) ∈ entries ∧ byh ck ≠ [] := by
  intro entries
  induction entries with
  | nil =>
    intro f hf
    simp [removeLoop] at hf
  | cons e rest ih =>
    obtain ⟨g, gk⟩ := e
    intro f hf
    cases hg : byh gk with
    | nil =>
      simp only [removeLoop, hg] at hf
      obtain ⟨ck, hmem, hne⟩ := ih f hf
      exact ⟨ck, List.mem_cons_of_mem _ hmem, hne⟩
    | cons c' cs' =>
      cases hh : hashFn c' with
      | error err => simp [removeLoop, hg, hh] at hf
      | ok cc =>
        by_cases he : cc = gk
        · simp only [removeLoop, hg, hh, if_pos he] at hf
          rcases List.mem_cons.mp hf with rfl | hf'
          · exact ⟨gk, List.mem_cons_self _ _, by rw [hg]; simp⟩
          · obtain ⟨ck, hmem, hne⟩ := ih f hf'
            exact ⟨ck, List.mem_cons_of_mem _ hmem, hne⟩
        · simp [removeLoop, hg, hh, he] at hf

theorem nodup_key_val (l : List Entry) (k : List Nat) (v w : Int × List Nat)
    (hnd : (l.map (fun e => e.1)).Nodup) (h1 : (k, v) ∈ l) (h2 : (k, w) ∈ l) :
    v = w := by
  induction l with
  | nil => simp at h1
  | cons e t ih =>
    simp only [List.map_cons, List.nodup_cons] at hnd
    rcases List.mem_cons.mp h1 with rfl | h1'
    · rcases List.mem_cons.mp h2 with h2h | h2'
      · exact (Prod.mk.injEq _ _ _ _ ▸ congrArg Prod.snd h2h.symm)
      · exfalso
        exact hnd.1 (List.mem_map_of_mem (fun e => e.1) h2')
    · rcases List.mem_cons.mp h2 with rfl | h2'
      · exfalso
        exact hnd.1 (List.mem_map_of_mem (fun e => e.1) h1')
      · exact ih hnd.2 h1' h2'

/-- **C10.** Target-directory files never serve as duplicate matches
for each other: if every cache entry carrying fingerprint `c` lies
directly in the target directory, then a target file with fingerprint
`c` is reported as having no duplicate (not in `reported`) and is left
untouched (not in `deleted`) — even in destructive mode. -/
theorem remove_dir_target_only_group_untouched
    (hashFn : List Nat → Except Unit (List Nat))
    (dirname real_path : List Nat → List Nat) (cache : List Entry)
    (directoryArg : List Nat) (remove : Bool) (c f : List Nat) (m : Int)
    (hnd : (cache.map (fun e => e.1)).Nodup)
    (hall : ∀ e ∈ cache, e.2.2 = c → dirname e.1 = real_path directoryArg)
    (hf : (f, (m, c)) ∈ cache) :
    f ∉ (remove_dir hashFn dirname real_path cache directoryArg remove).reported ∧
    f ∉ (remove_dir hashFn dirname real_path cache directoryArg remove).deleted := by
  have hby : byhash dirname (real_path directoryArg) cache c = [] := by
    unfold byhash
    have : cache.filter (fun e =>
        decide (¬ dirname e.1 = real_path directoryArg) && decide (e.2.2 = c)) = [] := by
      rw [List.filter_eq_nil_iff]
      intro e he
      by_cases hec : e.2.2 = c
      · have := hall e he hec
        simp [this, hec]
      · simp [hec]
    rw [this]
    rfl
  have hrep : f ∉ (remove_dir hashFn dirname real_path cache directoryArg remove).reported := by
    intro hfr
    unfold remove_dir at hfr
    obtain ⟨ck, hmem, hne⟩ := removeLoop_reported_group hashFn _ remove _ f hfr
    simp only [contentOf, List.mem_map, List.mem_filter] at hmem
    obtain ⟨e, ⟨he, _⟩, heq⟩ := hmem
    obtain ⟨e1, e2⟩ := e
    simp only [Prod.mk.injEq] at heq
    obtain ⟨rfl, rfl⟩ := heq
    have : e2 = (m, c) := nodup_key_val cache e1 e2 (m, c) hnd he hf
    rw [this] at hne
    exact hne hby
  refine ⟨hrep, fun hfd => hrep ?_⟩
  unfold remove_dir at hfd ⊢
  exact removeLoop_deleted_sub_reported hashFn _ remove _ f hfd

/-- Witness for C10: two identical files both directly inside the
target `/d` and no external copy — the first is neither reported nor
deleted, even with removal requested. -/
theorem remove_dir_target_only_group_untouched_witness :
    [47, 100, 47, 97] ∉ (remove_dir (fun _ => Except.ok [10]) os_dirname (fun p => p)
      [([47, 100, 47, 97], (0, [10])), ([47, 100, 47, 98], (3, [10]))]
      [47, 100] true).reported ∧
    [47, 100, 47, 97] ∉ (remove_dir (fun _ => Except.ok [10]) os_dirname (fun p => p)
      [([47, 100, 47, 97], (0, [10])), ([47, 100, 47, 98], (3, [10]))]
      [47, 100] true).deleted :=
  remove_dir_target_only_group_untouched (fun _ => Except.ok [10]) os_dirname
    (fun p => p) [([47, 100, 47, 97], (0, [10])), ([47, 100, 47, 98], (3, [10]))]
    [47, 100] true [10] [47, 100, 47, 97] 0 (by decide) (by decide) (by decide)

end Dedup
